import Mathlib

/-!
Verification of the memshell storage engine (src/memshell.cpp).

The C++ source is shallowly embedded below.  `size_t` values are modelled
as `Nat`; the one place where `size_t` wrap-around matters is the
subtraction in `MemoryConsole::findFreeSpace`, which is modelled by `wsub`
(subtraction modulo `2 ^ 64`).  The raw byte buffer `memory` is modelled as
a total function `Nat → Nat`; the C++ buffer has `memorySize` bytes, and
accesses beyond that bound are undefined behaviour in the source.
-/

namespace Memshell

/-- The number of values of `size_t` on the 64-bit target (`SIZE_MAX + 1`). -/
def W : Nat := 2 ^ 64

/-- `size_t` subtraction: `a - b` computed modulo `2 ^ 64`, for `a b < W`.
This is exactly what `range.first - current` and `memorySize - current`
compute in `MemoryConsole::findFreeSpace`. -/
def wsub (a b : Nat) : Nat := (a + (W - b)) % W

/-- Embedding of `struct FileEntry` from src/memshell.cpp. -/
structure FileEntry where
  name : String
  offset : Nat
  size : Nat
  isDirectory : Bool
  parent : Nat
deriving DecidableEq, Repr

/-- A default entry, used with `List.getD` to model raw vector indexing. -/
def dfl : FileEntry := { name := "", offset := 0, size := 0, isDirectory := true, parent := 0 }

/-- The state of `class MemoryConsole`: the backing buffer (a total
function standing for the `memorySize`-byte allocation), its size, the
file table, the current directory index and the reserved data start. -/
structure Console where
  memory : Nat → Nat
  memorySize : Nat
  fileTable : List FileEntry
  currentDir : Nat
  dataStart : Nat

/-- The root entry pushed by `initializeFileSystem`: `{"", 0, 0, true, 0}`. -/
def rootEntry : FileEntry := { name := "", offset := 0, size := 0, isDirectory := true, parent := 0 }

/-- The console state right after the constructor ran: a zeroed buffer of
`2ULL * 1024 * 1024 * 1024` bytes, the file table holding only the root,
`currentDir = 0` and `dataStart = 1024 * 1024`. -/
def initState : Console :=
  { memory := fun _ => 0
    memorySize := 2 ^ 31
    fileTable := [rootEntry]
    currentDir := 0
    dataStart := 1024 * 1024 }

/-- The test `! file.isDirectory && file.size > 0` selecting entries whose
byte range participates in allocation. -/
def isLiveB (e : FileEntry) : Bool := !e.isDirectory && decide (0 < e.size)

/-- Propositional form of `isLiveB`. -/
def IsLive (e : FileEntry) : Prop := e.isDirectory = false ∧ 0 < e.size

/-- The live file entries, in table order. -/
def liveEntries (ft : List FileEntry) : List FileEntry := ft.filter isLiveB

/-- The pair `{file.offset, file.offset + file.size}` pushed into
`usedRanges` (the addition is `size_t` addition, hence the reduction
modulo `W`). -/
def entryRange (e : FileEntry) : Nat × Nat := (e.offset, (e.offset + e.size) % W)

/-- The `usedRanges` vector built by `findFreeSpace` before sorting. -/
def usedRanges (ft : List FileEntry) : List (Nat × Nat) := (liveEntries ft).map entryRange

/-- The strict-weak order `operator<` on `std::pair<size_t, size_t>` used
by `std::sort`, in non-strict form: lexicographic comparison. -/
def pairLe (a b : Nat × Nat) : Prop := a.1 < b.1 ∨ (a.1 = b.1 ∧ a.2 ≤ b.2)

instance : DecidableRel pairLe := fun a b => by
  unfold pairLe; exact inferInstance

instance : IsTotal (Nat × Nat) pairLe where
  total a b := by unfold pairLe; omega

instance : IsTrans (Nat × Nat) pairLe where
  trans a b c := by unfold pairLe; omega

/-- The effect of `std::sort(usedRanges.begin(), usedRanges.end())`: the
ascending lexicographic reordering.  Since `pairLe` is a total order the
sorted permutation is unique, so any correct implementation of `std::sort`
produces exactly this list. -/
def sortRanges (rs : List (Nat × Nat)) : List (Nat × Nat) := rs.insertionSort pairLe

/-- The gap scan of `findFreeSpace`: walk the sorted ranges, return
`current` as soon as `range.first - current >= size` (a `size_t`
subtraction), otherwise advance `current` to `range.second`; after the
last range test `memorySize - current >= size`.  `none` models the
`SIZE_MAX` failure sentinel. -/
def scanGaps (cap : Nat) (rs : List (Nat × Nat)) (cur len : Nat) : Option Nat :=
  match rs with
  | [] => if len ≤ wsub cap cur then some cur else none
  | r :: rest => if len ≤ wsub r.1 cur then some cur else scanGaps cap rest r.2 len

/-- Embedding of `MemoryConsole::findFreeSpace`. -/
def findFreeSpace (s : Console) (len : Nat) : Option Nat :=
  scanGaps s.memorySize (sortRanges (usedRanges s.fileTable)) s.dataStart len

/-- Helper for `findFile`: linear scan returning the first matching index,
counting from `b`. -/
def findFileAux (name : String) (parentDir : Nat) : List FileEntry → Nat → Option Nat
  | [], _ => none
  | e :: rest, b =>
      if e.name = name ∧ e.parent = parentDir then some b
      else findFileAux name parentDir rest (b + 1)

/-- Embedding of `MemoryConsole::findFile`: index of the first entry with
the given name and parent; `none` models the `SIZE_MAX` sentinel. -/
def findFile (ft : List FileEntry) (name : String) (parentDir : Nat) : Option Nat :=
  findFileAux name parentDir ft 0

/-- Outcome messages of the file-system commands. -/
inductive CmdOut where
  | ok
  | notFound
  | noSpace
  | alreadyExists
  | notEmpty
deriving DecidableEq, Repr

/-- Embedding of `MemoryConsole::reallocateMemory`.  The `ok` flag is the
allocation oracle: `true` when `std::make_unique` succeeds (the new buffer
is zero-filled and the first `min(memorySize, newSize)` bytes are copied),
`false` when it throws `std::bad_alloc` (the `catch` returns before any
member was mutated). -/
def reallocateMemory (s : Console) (newSize : Nat) (ok : Bool) : Console × Bool :=
  if ok then
    ({ s with
        memory := fun i => if i < min s.memorySize newSize then s.memory i else 0
        memorySize := newSize }, true)
  else (s, false)

/-- The `poke` command: write `value` (cast to `uint8_t`) at `offset` when
`offset < memorySize`, otherwise report an invalid offset and change
nothing. -/
def pokeCmd (s : Console) (off v : Nat) : Console :=
  if off < s.memorySize then
    { s with memory := fun a => if a = off then v % 256 else s.memory a }
  else s

/-- The `mkdir` command: refuse when `findFile(name, currentDir)` hits,
else push `{name, 0, 0, true, currentDir}`. -/
def mkdirCmd (s : Console) (name : String) : Console × CmdOut :=
  match findFile s.fileTable name s.currentDir with
  | some _ => (s, CmdOut.alreadyExists)
  | none =>
      ({ s with fileTable := s.fileTable ++
          [{ name := name, offset := 0, size := 0, isDirectory := true, parent := s.currentDir }] },
       CmdOut.ok)

/-- The `touch` command: refuse when `findFile(name, currentDir)` hits,
else push `{name, 0, 0, false, currentDir}`. -/
def touchCmd (s : Console) (name : String) : Console × CmdOut :=
  match findFile s.fileTable name s.currentDir with
  | some _ => (s, CmdOut.alreadyExists)
  | none =>
      ({ s with fileTable := s.fileTable ++
          [{ name := name, offset := 0, size := 0, isDirectory := false, parent := s.currentDir }] },
       CmdOut.ok)

/-- The `std::copy(content.begin(), content.end(), memory.get() + offset)`
of the `write` command, on the modelled buffer. -/
def writeBytes (mem : Nat → Nat) (off : Nat) (content : List Nat) : Nat → Nat :=
  fun a => if off ≤ a ∧ a < off + content.length then content.getD (a - off) 0 else mem a

/-- The `write` command: resolve the name under the current directory,
refuse directories and missing names, ask `findFreeSpace` for
`content.length()` bytes, copy the content there and update the entry's
offset and size. -/
def writeCmd (s : Console) (name : String) (content : List Nat) : Console × CmdOut :=
  match findFile s.fileTable name s.currentDir with
  | none => (s, CmdOut.notFound)
  | some i =>
      if (s.fileTable.getD i dfl).isDirectory then (s, CmdOut.notFound)
      else
        match findFreeSpace s content.length with
        | none => (s, CmdOut.noSpace)
        | some o =>
            ({ s with
                memory := writeBytes s.memory o content
                fileTable := s.fileTable.set i
                  { s.fileTable.getD i dfl with offset := o, size := content.length } },
             CmdOut.ok)

/-- The addresses read by the `cat` command: when the name resolves to a
file, `std::cout.write(memory.get() + offset, size)` reads the `size`
bytes starting at `offset` with no bounds check whatsoever. -/
def catReads (s : Console) (name : String) : List Nat :=
  match findFile s.fileTable name s.currentDir with
  | none => []
  | some i =>
      let e := s.fileTable.getD i dfl
      if e.isDirectory then [] else (List.range e.size).map (fun j => e.offset + j)

/-- The `rm` command: files are erased unconditionally; a directory is
erased only when no entry has it as parent. -/
def rmCmd (s : Console) (name : String) : Console × CmdOut :=
  match findFile s.fileTable name s.currentDir with
  | none => (s, CmdOut.notFound)
  | some i =>
      if (s.fileTable.getD i dfl).isDirectory then
        if s.fileTable.any (fun e => e.parent == i) then (s, CmdOut.notEmpty)
        else ({ s with fileTable := s.fileTable.eraseIdx i }, CmdOut.ok)
      else ({ s with fileTable := s.fileTable.eraseIdx i }, CmdOut.ok)

/-- The `cd` command: `/` goes to the root, `..` follows the parent link
unless already at the root, and any other token is resolved as a single
segment under the current directory. -/
def cdCmd (s : Console) (path : String) : Console :=
  if path = "/" then { s with currentDir := 0 }
  else if path = ".." then
    if s.currentDir ≠ 0 then
      { s with currentDir := (s.fileTable.getD s.currentDir dfl).parent }
    else s
  else
    match findFile s.fileTable path s.currentDir with
    | some i => if (s.fileTable.getD i dfl).isDirectory then { s with currentDir := i } else s
    | none => s

/-- One step of the `parent`-link walk performed by
`MemoryConsole::getFullPath` (`current = fileTable[current].parent`). -/
def parentStep (s : Console) (i : Nat) : Nat := (s.fileTable.getD i dfl).parent

/-- Iterated parent walk: the index reached after `k` loop iterations of
`getFullPath` starting from `i`. -/
def parentWalk (s : Console) (k i : Nat) : Nat :=
  match k with
  | 0 => i
  | k + 1 => parentWalk s k (parentStep s i)

/-- Guard for the `write` step of the transition system: when the command
would copy past the end of the buffer the C++ `std::copy` is undefined
behaviour, so the transition system has no successor there. -/
def writeDefined (s : Console) (name : String) (content : List Nat) : Bool :=
  match findFile s.fileTable name s.currentDir with
  | none => true
  | some i =>
      if (s.fileTable.getD i dfl).isDirectory then true
      else
        match findFreeSpace s content.length with
        | none => true
        | some o => decide (o + content.length ≤ s.memorySize)

/-- Guard for the `cd ..` step: `fileTable[currentDir]` is an unchecked
vector access, undefined when `currentDir` is out of range. -/
def cdDefined (s : Console) (path : String) : Bool :=
  if path = ".." then decide (s.currentDir < s.fileTable.length) else true

/-- One console command, as a transition between states.  `resize` carries
its allocation oracle; commands whose C++ execution would be undefined
behaviour (an out-of-bounds `std::copy` or vector access) have no
transition.  `peek` and `cat` never mutate the state. -/
inductive Step : Console → Console → Prop where
  | peek (s : Console) (off : Nat) : Step s s
  | poke (s : Console) (off v : Nat) : Step s (pokeCmd s off v)
  | resizeOk (s : Console) (n : Nat) : n < W → Step s (reallocateMemory s n true).1
  | resizeFail (s : Console) (n : Nat) : Step s (reallocateMemory s n false).1
  | mkdir (s : Console) (name : String) : Step s (mkdirCmd s name).1
  | touch (s : Console) (name : String) : Step s (touchCmd s name).1
  | write (s : Console) (name : String) (content : List Nat) :
      writeDefined s name content = true → Step s (writeCmd s name content).1
  | cat (s : Console) (name : String) : Step s s
  | rm (s : Console) (name : String) : Step s (rmCmd s name).1
  | cd (s : Console) (path : String) :
      cdDefined s path = true → Step s (cdCmd s path)

/-- States reachable from the freshly constructed console by any sequence
of commands. -/
inductive Reach : Console → Prop where
  | init : Reach initState
  | step {s t : Console} : Reach s → Step s t → Reach t

/-- Disjointness of the byte ranges of two file entries. -/
def disjE (a b : FileEntry) : Prop :=
  a.offset + a.size ≤ b.offset ∨ b.offset + b.size ≤ a.offset

instance (a b : FileEntry) : Decidable (disjE a b) := by unfold disjE; exact inferInstance

theorem wsub_eq_sub {a b : Nat} (hba : b ≤ a) (ha : a < W) : wsub a b = a - b := by
  unfold wsub
  have hbW : b ≤ W := le_of_lt (lt_of_le_of_lt hba ha)
  have h1 : a + (W - b) = (a - b) + W := by omega
  rw [h1, Nat.add_mod_right, Nat.mod_eq_of_lt (by omega)]

theorem le_wsub_iff {a b len : Nat} (hba : b ≤ a) (ha : a < W) :
    len ≤ wsub a b ↔ b + len ≤ a := by
  rw [wsub_eq_sub hba ha]; omega

theorem findFileAux_none_iff (name : String) (p : Nat) :
    ∀ (l : List FileEntry) (b : Nat),
      findFileAux name p l b = none ↔ ∀ e ∈ l, ¬(e.name = name ∧ e.parent = p) := by
  intro l
  induction l with
  | nil => intro b; simp [findFileAux]
  | cons e rest ih =>
      intro b
      by_cases h : e.name = name ∧ e.parent = p
      · simp [findFileAux, h]
      · simp only [findFileAux, if_neg h, List.mem_cons]
        rw [ih (b + 1)]
        constructor
        · intro hall x hx
          rcases hx with hx | hx
          · subst hx; exact h
          · exact hall x hx
        · intro hall x hx; exact hall x (Or.inr hx)

theorem findFileAux_some (name : String) (p : Nat) :
    ∀ (l : List FileEntry) (b i : Nat),
      findFileAux name p l b = some i →
      b ≤ i ∧ i - b < l.length ∧
        (l.getD (i - b) dfl).name = name ∧ (l.getD (i - b) dfl).parent = p := by
  intro l
  induction l with
  | nil => intro b i h; simp [findFileAux] at h
  | cons e rest ih =>
      intro b i h
      by_cases hc : e.name = name ∧ e.parent = p
      · simp only [findFileAux, if_pos hc] at h
        have hbi : b = i := by exact Option.some.inj h
        subst hbi
        simpa [List.getD] using hc
      · simp only [findFileAux, if_neg hc] at h
        obtain ⟨h1, h2, h3, h4⟩ := ih (b + 1) i h
        have hib : i - b = (i - (b + 1)) + 1 := by omega
        refine ⟨by omega, by simp [hib]; omega, ?_, ?_⟩
        · rw [hib]; simpa [List.getD] using h3
        · rw [hib]; simpa [List.getD] using h4

theorem findFile_none_iff (ft : List FileEntry) (name : String) (p : Nat) :
    findFile ft name p = none ↔ ∀ e ∈ ft, ¬(e.name = name ∧ e.parent = p) :=
  findFileAux_none_iff name p ft 0

theorem findFile_some {ft : List FileEntry} {name : String} {p i : Nat}
    (h : findFile ft name p = some i) :
    i < ft.length ∧ (ft.getD i dfl).name = name ∧ (ft.getD i dfl).parent = p := by
  have := findFileAux_some name p ft 0 i h
  simpa using this

theorem chain_rest {r : Nat × Nat} {rs : List (Nat × Nat)}
    (hchain : List.Chain' (fun a b : Nat × Nat => a.2 ≤ b.1) (r :: rs))
    (hne : ∀ x ∈ r :: rs, x.1 < x.2) :
    ∀ x ∈ rs, r.2 ≤ x.1 := by
  induction rs generalizing r with
  | nil => intro x hx; simp at hx
  | cons y ys ih =>
      intro x hx
      have hry : r.2 ≤ y.1 := (List.chain'_cons.mp hchain).1
      rcases List.mem_cons.mp hx with hx | hx
      · subst hx; exact hry
      · have hyx : y.2 ≤ x.1 :=
          ih (List.chain'_cons.mp hchain).2
            (fun z hz => hne z (List.mem_cons_of_mem r hz)) x hx
        have hy : y.1 < y.2 := hne y (by simp)
        omega

theorem scanGaps_disjoint {cap : Nat} :
    ∀ (rs : List (Nat × Nat)) (cur len o : Nat),
      (∀ r ∈ rs, cur ≤ r.1) → (∀ r ∈ rs, r.1 < r.2) → (∀ r ∈ rs, r.2 < W) →
      List.Chain' (fun a b : Nat × Nat => a.2 ≤ b.1) rs →
      scanGaps cap rs cur len = some o →
      cur ≤ o ∧ ∀ r ∈ rs, o + len ≤ r.1 ∨ r.2 ≤ o := by
  intro rs
  induction rs with
  | nil =>
      intro cur len o _ _ _ _ h
      simp only [scanGaps] at h
      split at h
      · have ho : cur = o := Option.some.inj h
        exact ⟨Nat.le_of_eq ho, by simp⟩
      · exact absurd h (by simp)
  | cons r rest ih =>
      intro cur len o hcur hne hW hchain h
      have hrcur : cur ≤ r.1 := hcur r (by simp)
      have hr12 : r.1 < r.2 := hne r (by simp)
      have hr1W : r.1 < W := lt_trans hr12 (hW r (by simp))
      simp only [scanGaps] at h
      split at h
      · next hgap =>
          have ho : cur = o := Option.some.inj h
          subst ho
          have hfit : cur + len ≤ r.1 := (le_wsub_iff hrcur hr1W).mp hgap
          refine ⟨le_refl _, ?_⟩
          intro x hx
          rcases List.mem_cons.mp hx with hx | hx
          · subst hx; exact Or.inl hfit
          · have : r.2 ≤ x.1 := chain_rest hchain hne x hx
            exact Or.inl (by omega)
      · next hgap =>
          have hrest : ∀ x ∈ rest, r.2 ≤ x.1 := chain_rest hchain hne
          obtain ⟨h1, h2⟩ := ih r.2 len o hrest
            (fun x hx => hne x (List.mem_cons_of_mem r hx))
            (fun x hx => hW x (List.mem_cons_of_mem r hx))
            (List.Chain'.tail hchain) h
          refine ⟨by omega, ?_⟩
          intro x hx
          rcases List.mem_cons.mp hx with hx | hx
          · subst hx; exact Or.inr h1
          · exact h2 x hx

theorem scanGaps_some {cap : Nat} :
    ∀ (rs : List (Nat × Nat)) (cur len o : Nat),
      cap < W → cur ≤ cap →
      (∀ r ∈ rs, cur ≤ r.1) → (∀ r ∈ rs, r.1 < r.2) → (∀ r ∈ rs, r.2 ≤ cap) →
      List.Chain' (fun a b : Nat × Nat => a.2 ≤ b.1) rs →
      scanGaps cap rs cur len = some o →
      cur ≤ o ∧ o + len ≤ cap ∧ (∀ r ∈ rs, o + len ≤ r.1 ∨ r.2 ≤ o) ∧
        ∀ o', cur ≤ o' → o' + len ≤ cap →
          (∀ r ∈ rs, o' + len ≤ r.1 ∨ r.2 ≤ o') → o ≤ o' := by
  intro rs
  induction rs with
  | nil =>
      intro cur len o hcapW hcurcap _ _ _ _ h
      simp only [scanGaps] at h
      split at h
      · next hgap =>
          have ho : cur = o := Option.some.inj h
          subst ho
          have : cur + len ≤ cap := (le_wsub_iff hcurcap hcapW).mp hgap
          exact ⟨le_refl _, this, by simp, fun o' ho' _ _ => ho'⟩
      · exact absurd h (by simp)
  | cons r rest ih =>
      intro cur len o hcapW hcurcap hcur hne hcap hchain h
      have hrcur : cur ≤ r.1 := hcur r (by simp)
      have hr12 : r.1 < r.2 := hne r (by simp)
      have hr2cap : r.2 ≤ cap := hcap r (by simp)
      have hr1W : r.1 < W := by omega
      simp only [scanGaps] at h
      split at h
      · next hgap =>
          have ho : cur = o := Option.some.inj h
          subst ho
          have hfit : cur + len ≤ r.1 := (le_wsub_iff hrcur hr1W).mp hgap
          refine ⟨le_refl _, by omega, ?_, fun o' ho' _ _ => ho'⟩
          intro x hx
          rcases List.mem_cons.mp hx with hx | hx
          · subst hx; exact Or.inl hfit
          · have : r.2 ≤ x.1 := chain_rest hchain hne x hx
            exact Or.inl (by omega)
      · next hgap =>
          have hsmall : r.1 < cur + len := by
            by_contra hcon
            exact hgap ((le_wsub_iff hrcur hr1W).mpr (by omega))
          have hrest : ∀ x ∈ rest, r.2 ≤ x.1 := chain_rest hchain hne
          obtain ⟨h1, h2, h3, h4⟩ := ih r.2 len o hcapW hr2cap hrest
            (fun x hx => hne x (List.mem_cons_of_mem r hx))
            (fun x hx => hcap x (List.mem_cons_of_mem r hx))
            (List.Chain'.tail hchain) h
          refine ⟨by omega, h2, ?_, ?_⟩
          · intro x hx
            rcases List.mem_cons.mp hx with hx | hx
            · subst hx; exact Or.inr h1
            · exact h3 x hx
          · intro o' ho' hfit' hdisj'
            rcases hdisj' r (by simp) with hl | hr
            · omega
            · exact h4 o' hr hfit' (fun x hx => hdisj' x (List.mem_cons_of_mem r hx))

theorem scanGaps_none {cap : Nat} :
    ∀ (rs : List (Nat × Nat)) (cur len : Nat),
      cap < W → cur ≤ cap →
      (∀ r ∈ rs, cur ≤ r.1) → (∀ r ∈ rs, r.1 < r.2) → (∀ r ∈ rs, r.2 ≤ cap) →
      List.Chain' (fun a b : Nat × Nat => a.2 ≤ b.1) rs →
      scanGaps cap rs cur len = none →
      ∀ o', cur ≤ o' → o' + len ≤ cap →
        (∀ r ∈ rs, o' + len ≤ r.1 ∨ r.2 ≤ o') → False := by
  intro rs
  induction rs with
  | nil =>
      intro cur len hcapW hcurcap _ _ _ _ h o' ho' hfit _
      simp only [scanGaps] at h
      split at h
      · exact absurd h (by simp)
      · next hgap => exact hgap ((le_wsub_iff hcurcap hcapW).mpr (by omega))
  | cons r rest ih =>
      intro cur len hcapW hcurcap hcur hne hcap hchain h o' ho' hfit hdisj
      have hrcur : cur ≤ r.1 := hcur r (by simp)
      have hr12 : r.1 < r.2 := hne r (by simp)
      have hr2cap : r.2 ≤ cap := hcap r (by simp)
      have hr1W : r.1 < W := by omega
      simp only [scanGaps] at h
      split at h
      · exact absurd h (by simp)
      · next hgap =>
          have hsmall : r.1 < cur + len := by
            by_contra hcon
            exact hgap ((le_wsub_iff hrcur hr1W).mpr (by omega))
          have hrest : ∀ x ∈ rest, r.2 ≤ x.1 := chain_rest hchain hne
          rcases hdisj r (by simp) with hl | hr
          · omega
          · exact ih r.2 len hcapW hr2cap hrest
              (fun x hx => hne x (List.mem_cons_of_mem r hx))
              (fun x hx => hcap x (List.mem_cons_of_mem r hx))
              (List.Chain'.tail hchain) h o' hr hfit
              (fun x hx => hdisj x (List.mem_cons_of_mem r hx))

/-- Disjointness of two offset ranges given as pairs. -/
def disjP (a b : Nat × Nat) : Prop := a.2 ≤ b.1 ∨ b.2 ≤ a.1

theorem mem_sortRanges {r : Nat × Nat} {rs : List (Nat × Nat)} :
    r ∈ sortRanges rs ↔ r ∈ rs :=
  (List.perm_insertionSort pairLe rs).mem_iff

theorem sorted_sortRanges (rs : List (Nat × Nat)) : (sortRanges rs).Pairwise pairLe :=
  List.sorted_insertionSort pairLe rs

theorem pairwise_disjP_sortRanges {rs : List (Nat × Nat)} (h : rs.Pairwise disjP) :
    (sortRanges rs).Pairwise disjP :=
  ((List.perm_insertionSort pairLe rs).pairwise_iff
    (fun hd => Or.symm hd)).mpr h

theorem chain_sortRanges {rs : List (Nat × Nat)}
    (hdisj : rs.Pairwise disjP) (hne : ∀ r ∈ rs, r.1 < r.2) :
    (sortRanges rs).Chain' (fun a b : Nat × Nat => a.2 ≤ b.1) := by
  apply List.Pairwise.chain'
  have hs := sorted_sortRanges rs
  have hd := pairwise_disjP_sortRanges hdisj
  rw [List.pairwise_iff_forall_sublist] at hs hd ⊢
  intro a b hab
  have hle : pairLe a b := hs hab
  have hdp : disjP a b := hd hab
  have hbmem : b ∈ sortRanges rs := hab.subset (by simp)
  have hb : b.1 < b.2 := hne b (mem_sortRanges.mp hbmem)
  rcases hdp with h | h
  · exact h
  · rcases hle with h1 | ⟨h1, _⟩ <;> omega

theorem liveEntries_mem {e : FileEntry} {ft : List FileEntry} :
    e ∈ liveEntries ft ↔ e ∈ ft ∧ e.isDirectory = false ∧ 0 < e.size := by
  simp [liveEntries, List.mem_filter, isLiveB, and_assoc]

theorem entryRange_eq {e : FileEntry} (h : e.offset + e.size < W) :
    entryRange e = (e.offset, e.offset + e.size) := by
  simp [entryRange, Nat.mod_eq_of_lt h]

theorem usedRanges_facts {ft : List FileEntry} {ds : Nat}
    (hB : ∀ e ∈ liveEntries ft, ds ≤ e.offset ∧ e.offset + e.size < W) :
    ∀ r ∈ sortRanges (usedRanges ft), ds ≤ r.1 ∧ r.1 < r.2 ∧ r.2 < W := by
  intro r hr
  have hr' : r ∈ usedRanges ft := mem_sortRanges.mp hr
  obtain ⟨e, he, hre⟩ := List.mem_map.mp hr'
  obtain ⟨hds, hW⟩ := hB e he
  have hpos : 0 < e.size := (liveEntries_mem.mp he).2.2
  rw [entryRange_eq hW] at hre
  subst hre
  exact ⟨hds, by omega, hW⟩

theorem usedRanges_chain {ft : List FileEntry} {ds : Nat}
    (hB : ∀ e ∈ liveEntries ft, ds ≤ e.offset ∧ e.offset + e.size < W)
    (hdisj : (liveEntries ft).Pairwise disjE) :
    (sortRanges (usedRanges ft)).Chain' (fun a b : Nat × Nat => a.2 ≤ b.1) := by
  apply chain_sortRanges
  · unfold usedRanges
    rw [List.pairwise_map]
    apply hdisj.imp_of_mem
    intro a b ha hb hab
    rw [entryRange_eq (hB a ha).2, entryRange_eq (hB b hb).2]
    exact hab
  · intro r hr
    obtain ⟨e, he, hre⟩ := List.mem_map.mp hr
    have hpos : 0 < e.size := (liveEntries_mem.mp he).2.2
    rw [entryRange_eq (hB e he).2] at hre
    subst hre
    simp; omega

theorem ranges_disj_iff {ft : List FileEntry} {ds o len : Nat}
    (hB : ∀ e ∈ liveEntries ft, ds ≤ e.offset ∧ e.offset + e.size < W) :
    (∀ r ∈ sortRanges (usedRanges ft), o + len ≤ r.1 ∨ r.2 ≤ o) ↔
      (∀ e ∈ liveEntries ft, o + len ≤ e.offset ∨ e.offset + e.size ≤ o) := by
  constructor
  · intro h e he
    have hr : entryRange e ∈ sortRanges (usedRanges ft) :=
      mem_sortRanges.mpr (List.mem_map.mpr ⟨e, he, rfl⟩)
    have := h _ hr
    rwa [entryRange_eq (hB e he).2] at this
  · intro h r hr
    obtain ⟨e, he, hre⟩ := List.mem_map.mp (mem_sortRanges.mp hr)
    rw [entryRange_eq (hB e he).2] at hre
    subst hre
    exact h e he

/-- Every offset handed out by the allocator starts at or after
`dataStart` and is disjoint from every live byte range.  This holds in
full generality (no bound tying the ranges to the current capacity is
needed). -/
theorem findFreeSpace_disjoint {s : Console} {len o : Nat}
    (hB : ∀ e ∈ liveEntries s.fileTable, s.dataStart ≤ e.offset ∧ e.offset + e.size < W)
    (hdisj : (liveEntries s.fileTable).Pairwise disjE)
    (h : findFreeSpace s len = some o) :
    s.dataStart ≤ o ∧
      ∀ e ∈ liveEntries s.fileTable, o + len ≤ e.offset ∨ e.offset + e.size ≤ o := by
  have hfacts := usedRanges_facts hB
  obtain ⟨h1, h2⟩ := scanGaps_disjoint (sortRanges (usedRanges s.fileTable))
    s.dataStart len o
    (fun r hr => (hfacts r hr).1)
    (fun r hr => (hfacts r hr).2.1)
    (fun r hr => (hfacts r hr).2.2)
    (usedRanges_chain hB hdisj) h
  exact ⟨h1, (ranges_disj_iff hB).mp h2⟩

/-- The first-fit specification: `o` is an admissible placement for `len`
bytes when it lies in the data region, fits below the capacity, and its
range meets no live file range. -/
def FFfree (s : Console) (len o : Nat) : Prop :=
  s.dataStart ≤ o ∧ o + len ≤ s.memorySize ∧
    ∀ e ∈ liveEntries s.fileTable, o + len ≤ e.offset ∨ e.offset + e.size ≤ o

theorem findFreeSpace_some_spec {s : Console} {len o : Nat}
    (hcap : s.memorySize < W) (hds : s.dataStart ≤ s.memorySize)
    (hB : ∀ e ∈ liveEntries s.fileTable,
      s.dataStart ≤ e.offset ∧ e.offset + e.size ≤ s.memorySize)
    (hdisj : (liveEntries s.fileTable).Pairwise disjE)
    (h : findFreeSpace s len = some o) :
    FFfree s len o ∧ ∀ o', FFfree s len o' → o ≤ o' := by
  have hB' : ∀ e ∈ liveEntries s.fileTable,
      s.dataStart ≤ e.offset ∧ e.offset + e.size < W := by
    intro e he; exact ⟨(hB e he).1, lt_of_le_of_lt (hB e he).2 hcap⟩
  have hfacts := usedRanges_facts hB'
  have hcap2 : ∀ r ∈ sortRanges (usedRanges s.fileTable), r.2 ≤ s.memorySize := by
    intro r hr
    obtain ⟨e, he, hre⟩ := List.mem_map.mp (mem_sortRanges.mp hr)
    rw [entryRange_eq (hB' e he).2] at hre
    subst hre
    exact (hB e he).2
  obtain ⟨h1, h2, h3, h4⟩ := scanGaps_some (sortRanges (usedRanges s.fileTable))
    s.dataStart len o hcap hds
    (fun r hr => (hfacts r hr).1)
    (fun r hr => (hfacts r hr).2.1)
    hcap2
    (usedRanges_chain hB' hdisj) h
  refine ⟨⟨h1, h2, (ranges_disj_iff hB').mp h3⟩, ?_⟩
  intro o' ho'
  exact h4 o' ho'.1 ho'.2.1 ((ranges_disj_iff hB').mpr ho'.2.2)

theorem findFreeSpace_none_spec {s : Console} {len : Nat}
    (hcap : s.memorySize < W) (hds : s.dataStart ≤ s.memorySize)
    (hB : ∀ e ∈ liveEntries s.fileTable,
      s.dataStart ≤ e.offset ∧ e.offset + e.size ≤ s.memorySize)
    (hdisj : (liveEntries s.fileTable).Pairwise disjE)
    (h : findFreeSpace s len = none) :
    ∀ o', ¬ FFfree s len o' := by
  have hB' : ∀ e ∈ liveEntries s.fileTable,
      s.dataStart ≤ e.offset ∧ e.offset + e.size < W := by
    intro e he; exact ⟨(hB e he).1, lt_of_le_of_lt (hB e he).2 hcap⟩
  have hfacts := usedRanges_facts hB'
  have hcap2 : ∀ r ∈ sortRanges (usedRanges s.fileTable), r.2 ≤ s.memorySize := by
    intro r hr
    obtain ⟨e, he, hre⟩ := List.mem_map.mp (mem_sortRanges.mp hr)
    rw [entryRange_eq (hB' e he).2] at hre
    subst hre
    exact (hB e he).2
  intro o' ho'
  exact scanGaps_none (sortRanges (usedRanges s.fileTable)) s.dataStart len
    hcap hds
    (fun r hr => (hfacts r hr).1)
    (fun r hr => (hfacts r hr).2.1)
    hcap2
    (usedRanges_chain hB' hdisj) h o' ho'.1 ho'.2.1
    ((ranges_disj_iff hB').mpr ho'.2.2)

/-- Conditional disjointness: two table entries may alias only if one of
them carries no live byte range. -/
def disjLive (a b : FileEntry) : Prop := IsLive a → IsLive b → disjE a b

/-- The inductive invariant of the console: the capacity is a `size_t`
value, the root sits at index 0, every live range starts in the data
region without wrapping, and live ranges are pairwise disjoint. -/
def Inv (s : Console) : Prop :=
  s.memorySize < W ∧
  s.fileTable.head? = some rootEntry ∧
  (∀ e ∈ s.fileTable, IsLive e → s.dataStart ≤ e.offset ∧ e.offset + e.size < W) ∧
  s.fileTable.Pairwise disjLive

theorem inv_liveB {s : Console} (hinv : Inv s) :
    ∀ e ∈ liveEntries s.fileTable, s.dataStart ≤ e.offset ∧ e.offset + e.size < W := by
  intro e he
  have h := liveEntries_mem.mp he
  exact hinv.2.2.1 e h.1 ⟨h.2.1, h.2.2⟩

theorem inv_liveDisj {s : Console} (hinv : Inv s) :
    (liveEntries s.fileTable).Pairwise disjE := by
  have h := hinv.2.2.2.filter isLiveB
  apply h.imp_of_mem
  intro a b ha hb hab
  exact hab ⟨(liveEntries_mem.mp ha).2.1, (liveEntries_mem.mp ha).2.2⟩
    ⟨(liveEntries_mem.mp hb).2.1, (liveEntries_mem.mp hb).2.2⟩

theorem pairwise_set {α : Type} {R : α → α → Prop} :
    ∀ (l : List α) (i : Nat) (a : α),
      l.Pairwise R → (∀ b ∈ l, R a b ∧ R b a) → (l.set i a).Pairwise R := by
  intro l
  induction l with
  | nil => intro i a _ _; simp
  | cons x xs ih =>
      intro i a hp ha
      match i with
      | 0 =>
          simp only [List.set]
          refine List.pairwise_cons.mpr ⟨?_, (List.pairwise_cons.mp hp).2⟩
          intro b hb
          exact (ha b (List.mem_cons_of_mem x hb)).1
      | j + 1 =>
          simp only [List.set]
          refine List.pairwise_cons.mpr ⟨?_, ?_⟩
          · intro b hb
            rcases List.mem_or_eq_of_mem_set hb with hb | hb
            · exact (List.pairwise_cons.mp hp).1 b hb
            · subst hb; exact (ha x (List.mem_cons_self x xs)).2
          · exact ih j a (List.pairwise_cons.mp hp).2
              (fun b hb => ha b (List.mem_cons_of_mem x hb))

theorem getD_mem {α : Type} {l : List α} {i : Nat} {d : α} (h : i < l.length) :
    l.getD i d ∈ l := by
  rw [List.getD_eq_getElem?_getD, List.getElem?_eq_getElem h]
  exact List.getElem_mem h

theorem head_root {ft : List FileEntry} (h : ft.head? = some rootEntry) :
    ∃ rest, ft = rootEntry :: rest := by
  cases ft with
  | nil => simp at h
  | cons a l =>
      have ha : a = rootEntry := by simpa using h
      exact ⟨l, by rw [ha]⟩

theorem getD_zero_of_head {ft : List FileEntry} (h : ft.head? = some rootEntry) :
    ft.getD 0 dfl = rootEntry := by
  obtain ⟨rest, hr⟩ := head_root h
  simp [hr, List.getD]

theorem writeCmd_eq_none {s : Console} {name : String} {content : List Nat}
    (h : findFile s.fileTable name s.currentDir = none) :
    writeCmd s name content = (s, CmdOut.notFound) := by
  unfold writeCmd; rw [h]

theorem writeCmd_eq_some {s : Console} {name : String} {content : List Nat} {i : Nat}
    (h : findFile s.fileTable name s.currentDir = some i) :
    writeCmd s name content =
      (if (s.fileTable.getD i dfl).isDirectory then (s, CmdOut.notFound)
       else
        match findFreeSpace s content.length with
        | none => (s, CmdOut.noSpace)
        | some o =>
            ({ s with
                memory := writeBytes s.memory o content
                fileTable := s.fileTable.set i
                  { s.fileTable.getD i dfl with offset := o, size := content.length } },
             CmdOut.ok)) := by
  unfold writeCmd; rw [h]

theorem mkdirCmd_eq_none {s : Console} {name : String}
    (h : findFile s.fileTable name s.currentDir = none) :
    mkdirCmd s name =
      ({ s with fileTable := s.fileTable ++
          [{ name := name, offset := 0, size := 0, isDirectory := true, parent := s.currentDir }] },
       CmdOut.ok) := by
  unfold mkdirCmd; rw [h]

theorem mkdirCmd_eq_some {s : Console} {name : String} {i : Nat}
    (h : findFile s.fileTable name s.currentDir = some i) :
    mkdirCmd s name = (s, CmdOut.alreadyExists) := by
  unfold mkdirCmd; rw [h]

theorem touchCmd_eq_none {s : Console} {name : String}
    (h : findFile s.fileTable name s.currentDir = none) :
    touchCmd s name =
      ({ s with fileTable := s.fileTable ++
          [{ name := name, offset := 0, size := 0, isDirectory := false, parent := s.currentDir }] },
       CmdOut.ok) := by
  unfold touchCmd; rw [h]

theorem touchCmd_eq_some {s : Console} {name : String} {i : Nat}
    (h : findFile s.fileTable name s.currentDir = some i) :
    touchCmd s name = (s, CmdOut.alreadyExists) := by
  unfold touchCmd; rw [h]

theorem rmCmd_eq_none {s : Console} {name : String}
    (h : findFile s.fileTable name s.currentDir = none) :
    rmCmd s name = (s, CmdOut.notFound) := by
  unfold rmCmd; rw [h]

theorem rmCmd_eq_some {s : Console} {name : String} {i : Nat}
    (h : findFile s.fileTable name s.currentDir = some i) :
    rmCmd s name =
      (if (s.fileTable.getD i dfl).isDirectory then
        (if s.fileTable.any (fun e => e.parent == i) then (s, CmdOut.notEmpty)
         else ({ s with fileTable := s.fileTable.eraseIdx i }, CmdOut.ok))
       else ({ s with fileTable := s.fileTable.eraseIdx i }, CmdOut.ok)) := by
  unfold rmCmd; rw [h]

theorem writeCmd_inv {s : Console} {name : String} {content : List Nat}
    (hinv : Inv s) (hguard : writeDefined s name content = true) :
    Inv (writeCmd s name content).1 := by
  cases hf : findFile s.fileTable name s.currentDir with
  | none => rw [writeCmd_eq_none hf]; exact hinv
  | some i =>
      rw [writeCmd_eq_some hf]
      by_cases hd : (s.fileTable.getD i dfl).isDirectory = true
      · rw [if_pos hd]; exact hinv
      · rw [if_neg hd]
        cases ha : findFreeSpace s content.length with
        | none => exact hinv
        | some o =>
            show Inv { s with
                memory := writeBytes s.memory o content
                fileTable := s.fileTable.set i
                  { s.fileTable.getD i dfl with offset := o, size := content.length } }
            have hbound : o + content.length ≤ s.memorySize := by
              simp only [writeDefined, hf, if_neg hd, ha] at hguard
              exact of_decide_eq_true hguard
            obtain ⟨hoff, hdisjo⟩ :=
              findFreeSpace_disjoint (inv_liveB hinv) (inv_liveDisj hinv) ha
            obtain ⟨hW, hhead, hbnd, hpw⟩ := hinv
            have hi0 : i ≠ 0 := by
              intro h0
              rw [h0, getD_zero_of_head hhead] at hd
              exact hd rfl
            obtain ⟨rest, hft⟩ := head_root hhead
            refine ⟨hW, ?_, ?_, ?_⟩
            · obtain ⟨j, hj⟩ := Nat.exists_eq_succ_of_ne_zero hi0
              simp [hft, hj, List.set]
            · intro e he hlive
              rcases List.mem_or_eq_of_mem_set he with he | he
              · exact hbnd e he hlive
              · subst he
                simp only at hlive ⊢
                exact ⟨hoff, by omega⟩
            · apply pairwise_set
              · exact hpw
              · intro b hb
                constructor
                · intro hle hlb
                  have hbl : b ∈ liveEntries s.fileTable := liveEntries_mem.mpr ⟨hb, hlb⟩
                  have := hdisjo b hbl
                  unfold disjE
                  simp only
                  omega
                · intro hlb hle
                  have hbl : b ∈ liveEntries s.fileTable := liveEntries_mem.mpr ⟨hb, hlb⟩
                  have := hdisjo b hbl
                  unfold disjE
                  simp only
                  omega

theorem appendEntry_inv {s : Console} {x : FileEntry}
    (hinv : Inv s) (hx : x.size = 0) :
    Inv { s with fileTable := s.fileTable ++ [x] } := by
  obtain ⟨hW, hhead, hbnd, hpw⟩ := hinv
  obtain ⟨rest, hft⟩ := head_root hhead
  refine ⟨hW, by simp [hft], ?_, ?_⟩
  · intro e he hlive
    rcases List.mem_append.mp he with he | he
    · exact hbnd e he hlive
    · have : e = x := by simpa using he
      subst this
      exact absurd hlive.2 (by omega)
  · refine List.pairwise_append.mpr ⟨hpw, by simp, ?_⟩
    intro a _ b hb
    have : b = x := by simpa using hb
    subst this
    intro _ hlb
    exact absurd hlb.2 (by omega)

theorem mkdirCmd_inv {s : Console} {name : String} (hinv : Inv s) :
    Inv (mkdirCmd s name).1 := by
  cases hf : findFile s.fileTable name s.currentDir with
  | some i => rw [mkdirCmd_eq_some hf]; exact hinv
  | none => rw [mkdirCmd_eq_none hf]; exact appendEntry_inv hinv rfl

theorem touchCmd_inv {s : Console} {name : String} (hinv : Inv s) :
    Inv (touchCmd s name).1 := by
  cases hf : findFile s.fileTable name s.currentDir with
  | some i => rw [touchCmd_eq_some hf]; exact hinv
  | none => rw [touchCmd_eq_none hf]; exact appendEntry_inv hinv rfl

theorem rmCmd_keeps_root {s : Console} {name : String}
    (hhead : s.fileTable.head? = some rootEntry) :
    (rmCmd s name).1.fileTable.head? = some rootEntry := by
  obtain ⟨rest, hft⟩ := head_root hhead
  cases hf : findFile s.fileTable name s.currentDir with
  | none => rw [rmCmd_eq_none hf]; exact hhead
  | some i =>
      rw [rmCmd_eq_some hf]
      by_cases hi0 : i = 0
      · subst hi0
        have hany : s.fileTable.any (fun e => e.parent == 0) = true := by
          apply List.any_eq_true.mpr
          exact ⟨rootEntry, by simp [hft], by simp [rootEntry]⟩
        rw [getD_zero_of_head hhead]
        rw [if_pos (show rootEntry.isDirectory = true from rfl), if_pos hany]
        exact hhead
      · obtain ⟨j, hj⟩ := Nat.exists_eq_succ_of_ne_zero hi0
        subst hj
        have herase : (s.fileTable.eraseIdx (j + 1)).head? = some rootEntry := by
          simp [hft, List.eraseIdx_cons_succ]
        by_cases hdir : (s.fileTable.getD (j + 1) dfl).isDirectory = true
        · rw [if_pos hdir]
          by_cases hany : s.fileTable.any (fun e => e.parent == (j + 1)) = true
          · rw [if_pos hany]; exact hhead
          · rw [if_neg hany]; exact herase
        · rw [if_neg hdir]; exact herase

theorem rmCmd_inv {s : Console} {name : String} (hinv : Inv s) :
    Inv (rmCmd s name).1 := by
  obtain ⟨hW, hhead, hbnd, hpw⟩ := hinv
  have hroot : (rmCmd s name).1.fileTable.head? = some rootEntry :=
    rmCmd_keeps_root hhead
  have hsub : (rmCmd s name).1.fileTable.Sublist s.fileTable := by
    cases hf : findFile s.fileTable name s.currentDir with
    | none => rw [rmCmd_eq_none hf]
    | some i =>
        rw [rmCmd_eq_some hf]
        split
        · split
          · exact List.Sublist.refl _
          · exact List.eraseIdx_sublist s.fileTable i
        · exact List.eraseIdx_sublist s.fileTable i
  have hmem : (rmCmd s name).1.memorySize = s.memorySize := by
    cases hf : findFile s.fileTable name s.currentDir with
    | none => rw [rmCmd_eq_none hf]
    | some i => rw [rmCmd_eq_some hf]; split
                · split <;> rfl
                · rfl
  have hds : (rmCmd s name).1.dataStart = s.dataStart := by
    cases hf : findFile s.fileTable name s.currentDir with
    | none => rw [rmCmd_eq_none hf]
    | some i => rw [rmCmd_eq_some hf]; split
                · split <;> rfl
                · rfl
  refine ⟨by rw [hmem]; exact hW, hroot, ?_, hpw.sublist hsub⟩
  intro e he hlive
  rw [hds]
  exact hbnd e (hsub.mem he) hlive

theorem reallocate_inv {s : Console} {n : Nat} {ok : Bool}
    (hinv : Inv s) (hn : ok = true → n < W) :
    Inv (reallocateMemory s n ok).1 := by
  obtain ⟨hW, hhead, hbnd, hpw⟩ := hinv
  unfold reallocateMemory
  cases ok with
  | false => exact ⟨hW, hhead, hbnd, hpw⟩
  | true => exact ⟨hn rfl, hhead, hbnd, hpw⟩

theorem pokeCmd_inv {s : Console} {off v : Nat} (hinv : Inv s) :
    Inv (pokeCmd s off v) := by
  unfold pokeCmd
  split
  · exact hinv
  · exact hinv

theorem cdCmd_inv {s : Console} {path : String} (hinv : Inv s) :
    Inv (cdCmd s path) := by
  obtain ⟨hW, hhead, hbnd, hpw⟩ := hinv
  unfold cdCmd
  split
  · exact ⟨hW, hhead, hbnd, hpw⟩
  · split
    · split
      · exact ⟨hW, hhead, hbnd, hpw⟩
      · exact ⟨hW, hhead, hbnd, hpw⟩
    · split
      · split
        · exact ⟨hW, hhead, hbnd, hpw⟩
        · exact ⟨hW, hhead, hbnd, hpw⟩
      · exact ⟨hW, hhead, hbnd, hpw⟩

theorem inv_init : Inv initState := by
  refine ⟨by norm_num [initState, W], by simp [initState], ?_, ?_⟩
  · intro e he hlive
    have : e = rootEntry := by simpa [initState] using he
    subst this
    exact absurd hlive.2 (by simp [rootEntry])
  · simp [initState]

theorem inv_step {s t : Console} (hinv : Inv s) (hstep : Step s t) : Inv t := by
  cases hstep with
  | peek _ => exact hinv
  | poke off v => exact pokeCmd_inv hinv
  | resizeOk n hn => exact reallocate_inv hinv (fun _ => hn)
  | resizeFail n => exact reallocate_inv hinv (fun h => by simp at h)
  | mkdir name => exact mkdirCmd_inv hinv
  | touch name => exact touchCmd_inv hinv
  | write name content hg => exact writeCmd_inv hinv hg
  | cat _ => exact hinv
  | rm name => exact rmCmd_inv hinv
  | cd path _ => exact cdCmd_inv hinv

theorem inv_reach {s : Console} (h : Reach s) : Inv s := by
  induction h with
  | init => exact inv_init
  | step _ hstep ih => exact inv_step ih hstep

/-- The bytes of the string `hello`. -/
def helloBytes : List Nat := [104, 101, 108, 108, 111]

/-- State after `touch f`. -/
def stateF : Console := (touchCmd initState "f").1

/-- State after `touch f; write f hello`. -/
def stateFHello : Console := (writeCmd stateF "f" helloBytes).1

/-- State after `touch f; write f hello; resize 0` (the resize succeeds:
allocating a zero-byte buffer does not throw). -/
def shrunkState : Console := (reallocateMemory stateFHello 0 true).1

/-- State after additionally `touch g; write g xy` on top of
`touch f; write f hello`. -/
def stateTwo : Console := (writeCmd (touchCmd stateFHello "g").1 "g" [120, 121]).1

theorem reach_stateFHello : Reach stateFHello :=
  Reach.step (Reach.step Reach.init (Step.touch initState "f"))
    (Step.write stateF "f" helloBytes (by decide))

theorem reach_shrunkState : Reach shrunkState :=
  Reach.step reach_stateFHello (Step.resizeOk stateFHello 0 (by decide))

theorem reach_stateTwo : Reach stateTwo :=
  Reach.step (Reach.step reach_stateFHello (Step.touch stateFHello "g"))
    (Step.write (touchCmd stateFHello "g").1 "g" [120, 121] (by decide))

/-- State after `touch a`. -/
def stateA : Console := (touchCmd initState "a").1

/-- State after `touch a; mkdir b`. -/
def stateB : Console := (mkdirCmd stateA "b").1

/-- State after `touch a; mkdir b; cd b`. -/
def stateCdB : Console := cdCmd stateB "b"

/-- State after `touch a; mkdir b; cd b; mkdir c`. -/
def stateC : Console := (mkdirCmd stateCdB "c").1

/-- State after `touch a; mkdir b; cd b; mkdir c; cd /`. -/
def stateCdRoot : Console := cdCmd stateC "/"

/-- State after `touch a; mkdir b; cd b; mkdir c; cd /; rm a`: the erase
shifts directory `c` from index 3 to index 2 while its parent field still
says 2, so `c` has become its own parent. -/
def corruptState : Console := (rmCmd stateCdRoot "a").1

theorem reach_corruptState : Reach corruptState :=
  Reach.step
    (Reach.step
      (Reach.step
        (Reach.step
          (Reach.step (Reach.step Reach.init (Step.touch initState "a"))
            (Step.mkdir stateA "b"))
          (Step.cd stateB "b" (by decide)))
        (Step.mkdir stateCdB "c"))
      (Step.cd stateC "/" (by decide)))
    (Step.rm stateCdRoot "a")

/-- C1: in every state reachable by any sequence of operations (mkdir,
touch, write, cat, rm, resize, peek, poke, cd), the byte ranges
`[offset, offset+size)` of any two distinct file entries with `size > 0`
are disjoint. -/
theorem claim_C1 {s : Console} (h : Reach s) :
    (liveEntries s.fileTable).Pairwise disjE :=
  inv_liveDisj (inv_reach h)

theorem claim_C1_witness : (liveEntries stateTwo.fileTable).Pairwise disjE :=
  claim_C1 reach_stateTwo

/-- C2: `write(name, content)` fails NotFound when the name does not
resolve under the current directory or resolves to a directory, fails
NoSpace when the allocator yields no offset, leaves the whole state
unchanged in every failure case, and on success copies the content into
the backing store at the allocator's offset and sets the entry's offset
and size, leaving every other byte and entry unchanged. -/
theorem claim_C2 (s : Console) (name : String) (content : List Nat) :
    (findFile s.fileTable name s.currentDir = none →
      writeCmd s name content = (s, CmdOut.notFound)) ∧
    (∀ i, findFile s.fileTable name s.currentDir = some i →
      (s.fileTable.getD i dfl).isDirectory = true →
      writeCmd s name content = (s, CmdOut.notFound)) ∧
    (∀ i, findFile s.fileTable name s.currentDir = some i →
      (s.fileTable.getD i dfl).isDirectory = false →
      findFreeSpace s content.length = none →
      writeCmd s name content = (s, CmdOut.noSpace)) ∧
    (∀ i o, findFile s.fileTable name s.currentDir = some i →
      (s.fileTable.getD i dfl).isDirectory = false →
      findFreeSpace s content.length = some o →
      (writeCmd s name content).2 = CmdOut.ok ∧
      (writeCmd s name content).1.memorySize = s.memorySize ∧
      (∀ j, j < content.length →
        (writeCmd s name content).1.memory (o + j) = content.getD j 0) ∧
      (∀ a, a < o ∨ o + content.length ≤ a →
        (writeCmd s name content).1.memory a = s.memory a) ∧
      (writeCmd s name content).1.fileTable =
        s.fileTable.set i
          { s.fileTable.getD i dfl with offset := o, size := content.length }) := by
  refine ⟨?_, ?_, ?_, ?_⟩
  · intro hf; exact writeCmd_eq_none hf
  · intro i hf hd
    rw [writeCmd_eq_some hf, if_pos hd]
  · intro i hf hd ha
    rw [writeCmd_eq_some hf, if_neg (by simp only [hd]; decide), ha]
  · intro i o hf hd ha
    rw [writeCmd_eq_some hf, if_neg (by simp only [hd]; decide), ha]
    refine ⟨rfl, rfl, ?_, ?_, rfl⟩
    · intro j hj
      show writeBytes s.memory o content (o + j) = content.getD j 0
      unfold writeBytes
      rw [if_pos (by omega)]
      congr 1
      omega
    · intro a haout
      show writeBytes s.memory o content a = s.memory a
      unfold writeBytes
      rw [if_neg (by omega)]

theorem claim_C2_witness :
    (writeCmd stateF "f" helloBytes).2 = CmdOut.ok ∧
    (writeCmd stateF "f" helloBytes).1.memory 1048576 = 104 ∧
    (writeCmd stateF "f" helloBytes).1.memory 0 = stateF.memory 0 := by
  have h := (claim_C2 stateF "f" helloBytes).2.2.2 1 1048576 (by decide) (by decide) (by decide)
  refine ⟨h.1, ?_, h.2.2.2.1 0 (by decide)⟩
  have := h.2.2.1 0 (by decide)
  simpa using this

/-- C3 counterexample: after `touch f; write f hello; resize 0` the
capacity is 0, so no gap of width 1 exists inside
`[dataStart, capacity)`; yet `findFreeSpace` does not report NoSpace but
returns offset 1048581 (the `size_t` subtraction
`memorySize - current` underflowed).  This refutes the claim for an
arbitrary (even reachable) namespace state. -/
theorem claim_C3_cex :
    findFreeSpace shrunkState 1 = some 1048581 ∧
    shrunkState.memorySize = 0 ∧
    ¬(1048581 + 1 ≤ shrunkState.memorySize) := by
  refine ⟨by decide, by decide, by decide⟩

/-- C3 amended: in any state whose live file ranges all lie inside
`[dataStart, capacity)` and are pairwise disjoint (and
`dataStart ≤ capacity < 2^64`), `findFreeSpace(length)` returns exactly
the lowest offset `o ≥ dataStart` with `o + length ≤ capacity` whose
range meets no live file range (first-fit), and reports NoSpace exactly
when no such offset exists. -/
theorem claim_C3_amended (s : Console) (len o : Nat)
    (hcap : s.memorySize < W) (hds : s.dataStart ≤ s.memorySize)
    (hB : ∀ e ∈ liveEntries s.fileTable,
      s.dataStart ≤ e.offset ∧ e.offset + e.size ≤ s.memorySize)
    (hdisj : (liveEntries s.fileTable).Pairwise disjE) :
    (findFreeSpace s len = some o ↔
      (FFfree s len o ∧ ∀ o', FFfree s len o' → o ≤ o')) ∧
    (findFreeSpace s len = none ↔ ∀ o', ¬ FFfree s len o') := by
  constructor
  · constructor
    · intro h; exact findFreeSpace_some_spec hcap hds hB hdisj h
    · rintro ⟨hfree, hmin⟩
      cases hfs : findFreeSpace s len with
      | none => exact absurd hfree (findFreeSpace_none_spec hcap hds hB hdisj hfs o)
      | some u =>
          obtain ⟨hfree', hmin'⟩ := findFreeSpace_some_spec hcap hds hB hdisj hfs
          exact congrArg some (Nat.le_antisymm (hmin' o hfree) (hmin u hfree'))
  · constructor
    · intro h; exact findFreeSpace_none_spec hcap hds hB hdisj h
    · intro hno
      cases hfs : findFreeSpace s len with
      | none => rfl
      | some u => exact absurd (findFreeSpace_some_spec hcap hds hB hdisj hfs).1 (hno u)

theorem claim_C3_amended_witness : FFfree stateFHello 1 1048581 :=
  ((claim_C3_amended stateFHello 1 1048581 (by decide) (by decide) (by decide)
    (by decide)).1.mp (by decide)).1

/-- C4 counterexample: the reachable state after
`touch f; write f hello; resize 0` contains the entry `f` with
`offset + size = 1048581 > 0 = capacity`, refuting the claimed
invariant. -/
theorem claim_C4_cex :
    Reach shrunkState ∧
    shrunkState.fileTable.getD 1 dfl =
      { name := "f", offset := 1048576, size := 5, isDirectory := false, parent := 0 } ∧
    shrunkState.memorySize = 0 ∧
    ¬((shrunkState.fileTable.getD 1 dfl).offset +
        (shrunkState.fileTable.getD 1 dfl).size ≤ shrunkState.memorySize) :=
  ⟨reach_shrunkState, by decide, by decide, by decide⟩

/-- C4 amended: provided the capacity is at least `dataStart` and every
live file range lies inside the capacity with pairwise-disjoint ranges,
every offset returned by `findFreeSpace(length)` satisfies
`offset + length ≤ capacity`.  (A shrinking resize breaks the proviso:
it leaves entries with `offset + size > capacity`, and `findFreeSpace`
can then return offsets beyond the capacity.) -/
theorem claim_C4_amended (s : Console) (len o : Nat)
    (hcap : s.memorySize < W) (hds : s.dataStart ≤ s.memorySize)
    (hB : ∀ e ∈ liveEntries s.fileTable,
      s.dataStart ≤ e.offset ∧ e.offset + e.size ≤ s.memorySize)
    (hdisj : (liveEntries s.fileTable).Pairwise disjE)
    (h : findFreeSpace s len = some o) :
    o + len ≤ s.memorySize :=
  (findFreeSpace_some_spec hcap hds hB hdisj h).1.2.1

theorem claim_C4_amended_witness : 1048581 + 1 ≤ stateFHello.memorySize :=
  claim_C4_amended stateFHello 1 1048581 (by decide) (by decide) (by decide)
    (by decide) (by decide)

/-- C5: a successful `resize(n)` sets the capacity to `n`, preserves the
first `min(old capacity, n)` bytes and zeroes everything beyond them;
hence `resize(n)` followed by a successful `resize(m)` with `m ≥ n`
preserves the first `n` bytes and leaves the bytes from `n` on zero. -/
theorem claim_C5 (s : Console) (n m i : Nat) (hnm : n ≤ m) :
    (reallocateMemory s n true).1.memorySize = n ∧
    (i < min s.memorySize n →
      (reallocateMemory s n true).1.memory i = s.memory i) ∧
    (min s.memorySize n ≤ i →
      (reallocateMemory s n true).1.memory i = 0) ∧
    (reallocateMemory (reallocateMemory s n true).1 m true).1.memorySize = m ∧
    (i < n →
      (reallocateMemory (reallocateMemory s n true).1 m true).1.memory i =
        (reallocateMemory s n true).1.memory i) ∧
    (n ≤ i →
      (reallocateMemory (reallocateMemory s n true).1 m true).1.memory i = 0) := by
  refine ⟨rfl, ?_, ?_, rfl, ?_, ?_⟩
  · intro h
    show (if i < min s.memorySize n then s.memory i else 0) = s.memory i
    rw [if_pos h]
  · intro h
    show (if i < min s.memorySize n then s.memory i else 0) = 0
    rw [if_neg (by omega)]
  · intro h
    show (if i < min n m then (reallocateMemory s n true).1.memory i else 0) =
      (reallocateMemory s n true).1.memory i
    rw [if_pos (by omega)]
  · intro h
    show (if i < min n m then (reallocateMemory s n true).1.memory i else 0) = 0
    rw [if_neg (by omega)]

theorem claim_C5_witness :
    (reallocateMemory initState 2 true).1.memorySize = 2 ∧
    (reallocateMemory (reallocateMemory initState 2 true).1 3 true).1.memory 1 =
      (reallocateMemory initState 2 true).1.memory 1 ∧
    (reallocateMemory (reallocateMemory initState 2 true).1 3 true).1.memory 2 = 0 := by
  have h1 := claim_C5 initState 2 3 1 (by decide)
  have h2 := claim_C5 initState 2 3 2 (by decide)
  exact ⟨h1.1, h1.2.2.2.2.1 (by decide), h2.2.2.2.2.2 (by decide)⟩

/-- C6: when the reallocation fails, `reallocateMemory` reports the
failure and leaves the capacity, every byte of the store, the file table
and the current directory exactly as they were. -/
theorem claim_C6 (s : Console) (n i : Nat) :
    (reallocateMemory s n false).1.memorySize = s.memorySize ∧
    (reallocateMemory s n false).1.memory i = s.memory i ∧
    (reallocateMemory s n false).1.fileTable = s.fileTable ∧
    (reallocateMemory s n false).1.currentDir = s.currentDir ∧
    (reallocateMemory s n false).2 = false :=
  ⟨rfl, rfl, rfl, rfl, rfl⟩

/-- C7: the claim states that reading a file whose range was left out of
bounds by a shrinking resize fails and touches no byte at or beyond the
capacity.  The code has no such check: in the reachable state after
`touch f; write f hello; resize 0` (capacity 0) the `cat f` command
reads the five bytes at addresses 1048576..1048580, all of them at or
beyond the capacity. -/
theorem claim_C7_bug :
    Reach shrunkState ∧
    shrunkState.memorySize = 0 ∧
    catReads shrunkState "f" = [1048576, 1048577, 1048578, 1048579, 1048580] :=
  ⟨reach_shrunkState, by decide, by decide⟩

/-- C8: `mkdir`/`touch` with name `n` under the current directory fail
AlreadyExists and append nothing when an entry `(n, currentDir)` already
exists, and otherwise append exactly one new entry with that name and
parent. -/
theorem claim_C8 (s : Console) (name : String) :
    ((∃ e ∈ s.fileTable, e.name = name ∧ e.parent = s.currentDir) →
      mkdirCmd s name = (s, CmdOut.alreadyExists) ∧
      touchCmd s name = (s, CmdOut.alreadyExists)) ∧
    ((¬ ∃ e ∈ s.fileTable, e.name = name ∧ e.parent = s.currentDir) →
      mkdirCmd s name =
        ({ s with fileTable := s.fileTable ++
            [{ name := name, offset := 0, size := 0, isDirectory := true,
               parent := s.currentDir }] }, CmdOut.ok) ∧
      touchCmd s name =
        ({ s with fileTable := s.fileTable ++
            [{ name := name, offset := 0, size := 0, isDirectory := false,
               parent := s.currentDir }] }, CmdOut.ok)) := by
  constructor
  · intro hex
    cases hf : findFile s.fileTable name s.currentDir with
    | none =>
        obtain ⟨e, he, hprop⟩ := hex
        exact absurd hprop ((findFile_none_iff s.fileTable name s.currentDir).mp hf e he)
    | some i => exact ⟨mkdirCmd_eq_some hf, touchCmd_eq_some hf⟩
  · intro hnex
    cases hf : findFile s.fileTable name s.currentDir with
    | none => exact ⟨mkdirCmd_eq_none hf, touchCmd_eq_none hf⟩
    | some i =>
        obtain ⟨hlen, hname, hpar⟩ := findFile_some hf
        exact absurd ⟨s.fileTable.getD i dfl, getD_mem hlen, hname, hpar⟩ hnex

theorem claim_C8_witness :
    (mkdirCmd initState "a").2 = CmdOut.ok ∧
    mkdirCmd (mkdirCmd initState "a").1 "a" =
      ((mkdirCmd initState "a").1, CmdOut.alreadyExists) := by
  have h1 := (claim_C8 initState "a").2 (by decide)
  have h2 := ((claim_C8 (mkdirCmd initState "a").1 "a").1 (by decide)).1
  exact ⟨by rw [h1.1], h2⟩

/-- C9: `rm` on a directory entry succeeds (erasing exactly that entry)
iff no entry in the table has it as parent and fails NotEmpty otherwise;
`rm` on a file entry always succeeds; and in every reachable state the
root entry stays at the head of the table after any `rm`. -/
theorem claim_C9 (s : Console) (name : String) (hreach : Reach s) :
    (∀ i, findFile s.fileTable name s.currentDir = some i →
      (s.fileTable.getD i dfl).isDirectory = true →
      (((∃ e ∈ s.fileTable, e.parent = i) → rmCmd s name = (s, CmdOut.notEmpty)) ∧
       ((¬ ∃ e ∈ s.fileTable, e.parent = i) →
          rmCmd s name = ({ s with fileTable := s.fileTable.eraseIdx i }, CmdOut.ok)))) ∧
    (∀ i, findFile s.fileTable name s.currentDir = some i →
      (s.fileTable.getD i dfl).isDirectory = false →
      rmCmd s name = ({ s with fileTable := s.fileTable.eraseIdx i }, CmdOut.ok)) ∧
    (rmCmd s name).1.fileTable.head? = some rootEntry := by
  refine ⟨?_, ?_, rmCmd_keeps_root (inv_reach hreach).2.1⟩
  · intro i hf hd
    constructor
    · intro hex
      have hany : s.fileTable.any (fun e => e.parent == i) = true := by
        apply List.any_eq_true.mpr
        obtain ⟨e, he, hp⟩ := hex
        exact ⟨e, he, by simp [hp]⟩
      rw [rmCmd_eq_some hf, if_pos hd, if_pos hany]
    · intro hnex
      have hany : ¬ s.fileTable.any (fun e => e.parent == i) = true := by
        intro hc
        obtain ⟨e, he, hp⟩ := List.any_eq_true.mp hc
        exact hnex ⟨e, he, by simpa using hp⟩
      rw [rmCmd_eq_some hf, if_pos hd, if_neg hany]
  · intro i hf hd
    rw [rmCmd_eq_some hf, if_neg (by simp only [hd]; decide)]

theorem claim_C9_witness :
    (rmCmd stateB "b").1.fileTable.head? = some rootEntry ∧
    rmCmd stateB "b" = ({ stateB with fileTable := stateB.fileTable.eraseIdx 2 }, CmdOut.ok) := by
  have h := claim_C9 stateB "b"
    (Reach.step (Reach.step Reach.init (Step.touch initState "a")) (Step.mkdir stateA "b"))
  exact ⟨h.2.2, (h.1 2 (by decide) (by decide)).2 (by decide)⟩

/-- C10: the claim states that parent links always lead back to the root
so that `getFullPath` terminates, and that `rm` never corrupts other
entries.  In the reachable state after
`touch a; mkdir b; cd b; mkdir c; cd /; rm a` the erase shifted `c` to
index 2 while its parent field still reads 2, so `c` is its own parent
and the `getFullPath` walk from it stays at 2 forever, never reaching
the root (index 0). -/
theorem claim_C10_bug :
    Reach corruptState ∧
    corruptState.fileTable.getD 2 dfl =
      { name := "c", offset := 0, size := 0, isDirectory := true, parent := 2 } ∧
    (∀ k, parentWalk corruptState k 2 = 2) ∧
    (∀ k, parentWalk corruptState k 2 ≠ 0) := by
  have hstep : parentStep corruptState 2 = 2 := by decide
  have hwalk : ∀ k, parentWalk corruptState k 2 = 2 := by
    intro k
    induction k with
    | zero => rfl
    | succ k ih =>
        show parentWalk corruptState k (parentStep corruptState 2) = 2
        rw [hstep]
        exact ih
  exact ⟨reach_corruptState, by decide, hwalk, fun k => by rw [hwalk k]; decide⟩

end Memshell
